import Mathlib

/-!
Verification of the equation-parsing and matrix-construction pipeline of the
costly_cross_feeding repository (source files scrape_data.py and load_data.py).

Modelling conventions for the shallow embedding:
* Python strings are `List Char`; Python dicts are insertion-ordered
  association lists (`odictSet` keeps the position of an existing key and
  appends new keys, exactly like CPython dict update/insert).
* A Python exception escaping a function is modelled by `Option.none`
  (the only exception reachable in the embedded code is the `ValueError`
  raised by tuple unpacking of `str.split`).
* Machine integers are `Int` (stoichiometric coefficients are small signed
  integers; no overflow concerns arise in the Python source).
-/

/-- Whitespace characters recognised by Python `str.strip()` / `str.split()`. -/
def isSpaceChar (c : Char) : Bool :=
  c = ' ' || c = '\t' || c = '\n' || c = '\r' || c = Char.ofNat 11 || c = Char.ofNat 12

/-- Python `str.strip()`: drop whitespace from both ends. -/
def pyStrip (s : List Char) : List Char :=
  ((s.dropWhile isSpaceChar).reverse.dropWhile isSpaceChar).reverse

/-- Fuelled worker for `pyWords` (fuel bounds the recursion depth; each
recursive call consumes at least one character, so `fuel = s.length`
in `pyWords` is always sufficient). -/
def pyWordsF : Nat → List Char → List (List Char)
  | _, [] => []
  | 0, s => [s]
  | fuel + 1, s =>
    match s.dropWhile isSpaceChar with
    | [] => []
    | c :: rest =>
      (c :: rest.takeWhile (fun x => !isSpaceChar x)) ::
        pyWordsF fuel (rest.dropWhile (fun x => !isSpaceChar x))

/-- Python `str.split()` with no argument: split on runs of whitespace,
discarding empty pieces. -/
def pyWords (s : List Char) : List (List Char) :=
  pyWordsF s.length s

/-- Fuelled worker for `pySplit` (same fuel discipline as `pyWordsF`). -/
def pySplitF (sep : List Char) : Nat → List Char → List (List Char)
  | _, [] => [[]]
  | 0, s => [s]
  | fuel + 1, c :: rest =>
    if sep.isPrefixOf (c :: rest) && !sep.isEmpty then
      [] :: pySplitF sep fuel ((c :: rest).drop sep.length)
    else
      match pySplitF sep fuel rest with
      | [] => [[c]]
      | p :: ps => (c :: p) :: ps

/-- Python `str.split(sep)` for a non-empty separator: split at every
non-overlapping occurrence of `sep`, scanning left to right. -/
def pySplit (sep s : List Char) : List (List Char) :=
  pySplitF sep s.length s

/-- Python substring test `sub in s`. -/
def isSubstr (sub : List Char) : List Char → Bool
  | [] => sub.isEmpty
  | c :: rest => sub.isPrefixOf (c :: rest) || isSubstr sub rest

/-- Python `str.isdigit()` restricted to the ASCII digits that occur in
KEGG equations: true iff the string is non-empty and all digits. -/
def pyIsDigit (s : List Char) : Bool :=
  !s.isEmpty && s.all Char.isDigit

/-- Python `int(s)` on a string of ASCII digits. -/
def strToNat (s : List Char) : Nat :=
  s.foldl (fun a c => a * 10 + (c.toNat - 48)) 0

/-- The test `met.startswith(("C", "G"))` from parse_equation. -/
def startsCG : List Char → Bool
  | [] => false
  | c :: _ => c = 'C' || c = 'G'

/-- Python `parts[-1]` on a (possibly empty) token list. -/
def lastD (l : List (List Char)) : List Char :=
  l.getLastD []

/-- Insertion-ordered dictionary update (CPython semantics: an existing key
keeps its position, a new key is appended at the end). -/
def odictSet {α β : Type} [DecidableEq α] : List (α × β) → α → β → List (α × β)
  | [], k, v => [(k, v)]
  | (k1, v1) :: rest, k, v =>
    if k1 = k then (k1, v) :: rest else (k1, v1) :: odictSet rest k v

/-- Dictionary lookup (first, hence unique, match). -/
def odictFind {α β : Type} [DecidableEq α] : List (α × β) → α → Option β
  | [], _ => none
  | (k1, v1) :: rest, k => if k1 = k then some v1 else odictFind rest k

/-- The `stoich` dictionary of parse_equation: metabolite identifier to
signed net coefficient, in insertion order. -/
abbrev Dict := List (List Char × Int)

/-- Python `stoich.get(met, 0)`. -/
def dictGet (d : Dict) (k : List Char) : Int :=
  (odictFind d k).getD 0

/-- Python `stoich[met] = v`. -/
def dictSet (d : Dict) (k : List Char) (v : Int) : Dict :=
  odictSet d k v

/-- The separator constants of parse_equation. -/
def sepRev : List Char := "<=>".toList

def sepIrr : List Char := "=>".toList

def sepRevSp : List Char := " <=> ".toList

def sepIrrSp : List Char := " => ".toList

def sepPlus : List Char := " + ".toList

/-- One iteration of the per-term loops of parse_equation
(scrape_data.py lines 57-64 and 67-74): `sign` is −1 for the
reactant loop and +1 for the product loop, which are otherwise
identical in the source.  `parts = term.strip().split()`; empty
terms are skipped; `coeff = int(parts[0]) if parts[0].isdigit() else 1`;
`met = parts[-1]`; the accumulation happens only when `met`
starts with `C` or `G`. -/
def addTerm (sign : Int) (stoich : Dict) (term : List Char) : Dict :=
  match pyWords (pyStrip term) with
  | [] => stoich
  | p :: ps =>
    if startsCG (lastD (p :: ps)) then
      dictSet stoich (lastD (p :: ps))
        (dictGet stoich (lastD (p :: ps)) +
          sign * (if pyIsDigit p then (strToNat p : Int) else 1))
    else stoich

/-- One whole side loop of parse_equation: fold `addTerm` over
`side.split(" + ")`. -/
def processSide (sign : Int) (stoich : Dict) (side : List Char) : Dict :=
  (pySplit sepPlus side).foldl (addTerm sign) stoich

/-- Lines 76-83 of scrape_data.py applied after both side loops:
drop metabolites with net coefficient 0 and return the parallel
(mets, coeffs) lists in dictionary (= insertion) order. -/
def finishParse (lhs rhs : List Char) : List (List Char) × List Int :=
  (((processSide 1 (processSide (-1) [] lhs) rhs).filter (fun p => p.2 != 0)).map Prod.fst,
   ((processSide 1 (processSide (-1) [] lhs) rhs).filter (fun p => p.2 != 0)).map Prod.snd)

/-- Outcome of the separator dispatch at the top of parse_equation. -/
inductive SplitRes : Type
  | err : SplitRes
  | nosep : SplitRes
  | sides : List Char → List Char → SplitRes
deriving DecidableEq

/-- Lines 49-54 of scrape_data.py: `if "<=>" in equation` split on
`" <=> "`, elif `"=>" in equation` split on `" => "`, else no separator.
`err` models the ValueError raised when `lhs, rhs = equation.split(...)`
does not unpack exactly two pieces. -/
def splitSides (e : List Char) : SplitRes :=
  if isSubstr sepRev e then
    match pySplit sepRevSp e with
    | [lhs, rhs] => SplitRes.sides lhs rhs
    | _ => SplitRes.err
  else if isSubstr sepIrr e then
    match pySplit sepIrrSp e with
    | [lhs, rhs] => SplitRes.sides lhs rhs
    | _ => SplitRes.err
  else SplitRes.nosep

/-- parse_equation (scrape_data.py lines 40-83).  `none` models an
escaping exception. -/
def parse_equation (e : List Char) : Option (List (List Char) × List Int) :=
  match splitSides e with
  | SplitRes.err => none
  | SplitRes.nosep => some ([], [])
  | SplitRes.sides lhs rhs => some (finishParse lhs rhs)

/-- The coefficient of a term as described by the specification of the
term-parsing rule: the integer value of the term's first whitespace token
when that token consists solely of digits, and 1 otherwise. -/
def claimedCoeff (term : List Char) : Int :=
  match pyWords (pyStrip term) with
  | [] => 1
  | p :: _ => if pyIsDigit p then (strToNat p : Int) else 1

/-- The metabolite identifier of a term as described by the specification:
the term's last whitespace token. -/
def claimedMet (term : List Char) : List Char :=
  lastD (pyWords (pyStrip term))

/-- The per-side total coefficient with which a metabolite `m` is parsed on
one equation side: the sum, over the side's `" + "`-separated terms, of the
coefficient contributed when the term's identifier token is `m` (and passes
the C/G prefix filter). -/
def termContrib (m term : List Char) : Int :=
  match pyWords (pyStrip term) with
  | [] => 0
  | p :: ps =>
    if startsCG (lastD (p :: ps)) ∧ lastD (p :: ps) = m then
      (if pyIsDigit p then (strToNat p : Int) else 1)
    else 0

/-- Total coefficient of metabolite `m` on one side of an equation. -/
def sideTotal (m side : List Char) : Int :=
  ((pySplit sepPlus side).map (termContrib m)).sum

/-- The `reaction_stoich` dictionary of build_stoich_matrix: directed
reaction identifier to stoichiometry record, in insertion order. -/
abbrev RDict := List (List Char × Dict)

/-- Python `dict(zip(mets, coeffs))` (and the negated dict comprehension of
line 112): build a dict from pairs in order, later keys overwriting. -/
def dictOfPairs (l : List (List Char × Int)) : Dict :=
  l.foldl (fun d p => odictSet d p.1 p.2) []

def fSuffix : List Char := "_f".toList

def rSuffix : List Char := "_r".toList

/-- One iteration of the loop of build_stoich_matrix (scrape_data.py lines
97-115) over `(rxn_id, eqn)`: `eqn = none` models a failed fetch (the
`if not eqn: continue` guard, which also skips an empty equation string);
otherwise the equation is parsed, a forward record is inserted when the
parse yielded any metabolites, and a reverse record is inserted whenever
the equation contains `"<=>"` — exactly as in the source, where the
reversible branch is not guarded by `if mets`.  A `none` accumulator
models an exception escaping from parse_equation. -/
def stepReaction (acc : Option RDict) (inp : List Char × Option (List Char)) :
    Option RDict :=
  match acc with
  | none => none
  | some rs =>
    match inp.2 with
    | none => some rs
    | some e =>
      if e = [] then some rs
      else
        match parse_equation e with
        | none => none
        | some (mets, coeffs) =>
          let rs1 := if mets.isEmpty then rs
            else odictSet rs (inp.1 ++ fSuffix) (dictOfPairs (mets.zip coeffs))
          let rs2 := if isSubstr sepRev e then
              odictSet rs1 (inp.1 ++ rSuffix)
                (dictOfPairs ((mets.zip coeffs).map (fun p => (p.1, -p.2))))
            else rs1
          some rs2

/-- The full record-collection loop of build_stoich_matrix over an ordered
list of (base reaction id, fetched equation) inputs. -/
def buildReactionStoich (inputs : List (List Char × Option (List Char))) :
    Option RDict :=
  inputs.foldl stepReaction (some [])

/-- Entry of the assembled DataFrame (scrape_data.py lines 118-123): the
matrix is initialised to 0 and `matrix.loc[met, rxn] = coeff` is executed
for every pair of the record of `rxn`, so the entry is the record's value
at `met`, defaulting to 0. -/
def stoichEntry (rs : RDict) (met rxn : List Char) : Int :=
  match odictFind rs rxn with
  | some d => dictGet d met
  | none => 0

/-- Column labels of the assembled matrix: `reaction_stoich.keys()`. -/
def stoichCols (rs : RDict) : List (List Char) :=
  rs.map Prod.fst

/-- load_data.py line 72, `rho = stoich_matrix.clip(max = 0.0)`:
keep negative entries, clamp the rest to 0.  The matrix is a list of rows
(one row per metabolite, one column per directed reaction). -/
def rhoM (a : List (List Int)) : List (List Int) :=
  a.map (fun r => r.map (fun x => min x 0))

/-- load_data.py line 73, `pi = stoich_matrix.clip(min = 0.0)`. -/
def piM (a : List (List Int)) : List (List Int) :=
  a.map (fun r => r.map (fun x => max x 0))

/-- load_data.py line 74, `rxnMat = (rho != 0) * 1`. -/
def rxnMatM (a : List (List Int)) : List (List Int) :=
  (rhoM a).map (fun r => r.map (fun x => if x = 0 then 0 else 1))

/-- load_data.py line 75, `prodMat = (pi != 0) * 1`. -/
def prodMatM (a : List (List Int)) : List (List Int) :=
  (piM a).map (fun r => r.map (fun x => if x = 0 then 0 else 1))

/-- load_data.py line 76, `sumRxnVec = np.sum(rxnMat, axis = 1)`:
`axis = 1` sums each row, so the result has one entry per matrix row. -/
def sumRxnVecM (a : List (List Int)) : List Int :=
  (rxnMatM a).map List.sum

/-- load_data.py line 77, `sumProdVec = np.sum(prodMat, axis = 1)`. -/
def sumProdVecM (a : List (List Int)) : List Int :=
  (prodMatM a).map List.sum

/-- Cell `(i, j)` of a row-major matrix, 0 outside the stored extent. -/
def entryD (a : List (List Int)) (i j : Nat) : Int :=
  (a.getD i []).getD j 0

/-- Number of negative entries in column `j` (the quantity the spec says
`sumRxnVec[j]` equals). -/
def colNegCount (a : List (List Int)) (j : Nat) : Nat :=
  (a.filter (fun r => decide (r.getD j 0 < 0))).length

/-- Number of positive entries in column `j` (the quantity the spec says
`sumProdVec[j]` equals). -/
def colPosCount (a : List (List Int)) (j : Nat) : Nat :=
  (a.filter (fun r => decide (0 < r.getD j 0))).length

/-- load_data.py line 39: `met_map = {met_id: idx for idx, met_id in
enumerate(metabolites)}`, an insertion-ordered dict built by enumeration. -/
def met_map (metabolites : List (List Char)) : List (List Char × Nat) :=
  metabolites.enum.foldl (fun d p => odictSet d p.2 p.1) []

/-- load_data.py line 40: `inv_met_map = {idx: met_id for met_id, idx in
met_map.items()}`. -/
def inv_met_map (metabolites : List (List Char)) : List (Nat × List Char) :=
  (met_map metabolites).foldl (fun d p => odictSet d p.2 p.1) []

/-- load_data.py line 47: `rxn_map`, built exactly like `met_map` but over
the reaction column labels. -/
def rxn_map (reactions : List (List Char)) : List (List Char × Nat) :=
  reactions.enum.foldl (fun d p => odictSet d p.2 p.1) []

/-- load_data.py line 48: `inv_rxn_map`. -/
def inv_rxn_map (reactions : List (List Char)) : List (Nat × List Char) :=
  (rxn_map reactions).foldl (fun d p => odictSet d p.2 p.1) []

/-- load_data.py lines 59-61: the guarded comprehension
`[met_map[i] for i in lst if i in met_map]` used for the Currency, Energy
and Core subset projections. -/
def subsetProj (mm : List (List Char × Nat)) (l : List (List Char)) : List Nat :=
  l.filterMap (fun i => odictFind mm i)

/-- Swap the components of a pair (used to relate `met_map` to `enum`). -/
def swapPair {α β : Type} (p : α × β) : β × α :=
  (p.2, p.1)

theorem odictFind_odictSet_self {α β : Type} [DecidableEq α]
    (d : List (α × β)) (k : α) (v : β) :
    odictFind (odictSet d k v) k = some v := by
  induction d with
  | nil => simp [odictSet, odictFind]
  | cons q rest ih =>
    obtain ⟨k1, v1⟩ := q
    by_cases h : k1 = k
    · simp [odictSet, odictFind, h]
    · simp [odictSet, odictFind, h, ih]

theorem odictFind_odictSet_ne {α β : Type} [DecidableEq α]
    (d : List (α × β)) (k : α) (v : β) (k2 : α) (h : k2 ≠ k) :
    odictFind (odictSet d k v) k2 = odictFind d k2 := by
  induction d with
  | nil =>
    simp only [odictSet, odictFind]
    rw [if_neg (fun hh => h hh.symm)]
  | cons q rest ih =>
    obtain ⟨k1, v1⟩ := q
    by_cases h1 : k1 = k
    · subst h1
      simp [odictSet, odictFind, Ne.symm h]
    · by_cases h2 : k1 = k2
      · subst h2
        simp [odictSet, odictFind, h1]
      · simp [odictSet, odictFind, h1, h2, ih]

theorem dictGet_dictSet_self (d : Dict) (k : List Char) (v : Int) :
    dictGet (dictSet d k v) k = v := by
  simp [dictGet, dictSet, odictFind_odictSet_self]

theorem dictGet_dictSet_ne (d : Dict) (k : List Char) (v : Int) (k2 : List Char)
    (h : k2 ≠ k) :
    dictGet (dictSet d k v) k2 = dictGet d k2 := by
  simp [dictGet, dictSet, odictFind_odictSet_ne d k v k2 h]

theorem addTerm_dictGet (sign : Int) (d : Dict) (t m : List Char) :
    dictGet (addTerm sign d t) m = dictGet d m + sign * termContrib m t := by
  rcases h : pyWords (pyStrip t) with _ | ⟨p, ps⟩
  · simp [addTerm, termContrib, h]
  · by_cases hcg : startsCG (lastD (p :: ps)) = true
    · by_cases hm : lastD (p :: ps) = m
      · rw [hm] at hcg
        simp [addTerm, termContrib, h, hcg, hm, dictGet_dictSet_self]
      · simp [addTerm, termContrib, h, hcg, hm,
          dictGet_dictSet_ne d _ _ m (fun hh => hm hh.symm)]
    · simp [addTerm, termContrib, h, hcg]

theorem foldl_addTerm_dictGet (sign : Int) (m : List Char) :
    ∀ (terms : List (List Char)) (d : Dict),
      dictGet (terms.foldl (addTerm sign) d) m
        = dictGet d m + sign * ((terms.map (termContrib m)).sum) := by
  intro terms
  induction terms with
  | nil => intro d; simp
  | cons t ts ih =>
    intro d
    simp only [List.foldl_cons, List.map_cons, List.sum_cons]
    rw [ih, addTerm_dictGet]
    ring

theorem processSide_dictGet (sign : Int) (d : Dict) (side m : List Char) :
    dictGet (processSide sign d side) m = dictGet d m + sign * sideTotal m side := by
  unfold processSide sideTotal
  exact foldl_addTerm_dictGet sign m _ d

theorem mem_keys_odictSet {α β : Type} [DecidableEq α]
    (d : List (α × β)) (k : α) (v : β) (x : α) :
    x ∈ (odictSet d k v).map Prod.fst → x ∈ d.map Prod.fst ∨ x = k := by
  induction d with
  | nil =>
    intro h
    right
    simpa [odictSet] using h
  | cons q rest ih =>
    obtain ⟨k1, v1⟩ := q
    intro h
    by_cases h1 : k1 = k
    · left
      simpa [odictSet, h1] using h
    · simp only [odictSet, if_neg h1, List.map_cons, List.mem_cons] at h ⊢
      rcases h with h | h
      · exact Or.inl (Or.inl h)
      · rcases ih h with h2 | h2
        · exact Or.inl (Or.inr h2)
        · exact Or.inr h2

theorem nodup_keys_odictSet {α β : Type} [DecidableEq α]
    (d : List (α × β)) (k : α) (v : β) :
    (d.map Prod.fst).Nodup → ((odictSet d k v).map Prod.fst).Nodup := by
  induction d with
  | nil => intro _; simp [odictSet]
  | cons q rest ih =>
    obtain ⟨k1, v1⟩ := q
    intro h
    simp only [List.map_cons, List.nodup_cons] at h
    by_cases h1 : k1 = k
    · simp only [odictSet, if_pos h1, List.map_cons, List.nodup_cons]
      exact ⟨h.1, h.2⟩
    · simp only [odictSet, if_neg h1, List.map_cons, List.nodup_cons]
      refine ⟨fun hmem => ?_, ih h.2⟩
      rcases mem_keys_odictSet rest k v k1 hmem with h2 | h2
      · exact h.1 h2
      · exact h1 h2

theorem odictFind_of_mem {α β : Type} [DecidableEq α]
    (d : List (α × β)) (k : α) (v : β) :
    (d.map Prod.fst).Nodup → (k, v) ∈ d → odictFind d k = some v := by
  induction d with
  | nil => intro _ hm; simp at hm
  | cons q rest ih =>
    obtain ⟨k1, v1⟩ := q
    intro hnd hm
    simp only [List.map_cons, List.nodup_cons] at hnd
    rcases List.mem_cons.mp hm with h | h
    · injection h with h1 h2
      subst h1
      subst h2
      simp [odictFind]
    · have hk1 : k1 ≠ k := by
        intro he
        subst he
        exact hnd.1 (List.mem_map.mpr ⟨(k1, v), h, rfl⟩)
      simp only [odictFind, if_neg hk1]
      exact ih hnd.2 h

theorem nodup_keys_addTerm (sign : Int) (d : Dict) (t : List Char) :
    (d.map Prod.fst).Nodup → ((addTerm sign d t).map Prod.fst).Nodup := by
  intro h
  rcases ht : pyWords (pyStrip t) with _ | ⟨p, ps⟩
  · simpa [addTerm, ht] using h
  · by_cases hcg : startsCG (lastD (p :: ps)) = true
    · simpa [addTerm, ht, hcg] using nodup_keys_odictSet d _ _ h
    · simpa [addTerm, ht, hcg] using h

theorem nodup_keys_foldl_addTerm (sign : Int) :
    ∀ (terms : List (List Char)) (d : Dict),
      (d.map Prod.fst).Nodup → ((terms.foldl (addTerm sign) d).map Prod.fst).Nodup := by
  intro terms
  induction terms with
  | nil => intro d h; simpa using h
  | cons t ts ih =>
    intro d h
    simpa [List.foldl_cons] using ih _ (nodup_keys_addTerm sign d t h)

/-- Claim C5: parse_equation drops every metabolite whose two side totals
cancel — if a metabolite is parsed with equal total coefficient on the
left- and right-hand side it does not occur in the output metabolite list —
and, more generally, no output coefficient is ever 0. -/
theorem claim_C5 (e m : List Char) (mets : List (List Char)) (coeffs : List Int)
    (hp : parse_equation e = some (mets, coeffs)) :
    (∀ c ∈ coeffs, c ≠ 0) ∧
      (∀ lhs rhs, splitSides e = SplitRes.sides lhs rhs →
        sideTotal m lhs = sideTotal m rhs → m ∉ mets) := by
  rcases hsp : splitSides e with _ | _ | ⟨l, r⟩
  · simp [parse_equation, hsp] at hp
  · simp only [parse_equation, hsp, Option.some.injEq, Prod.mk.injEq] at hp
    obtain ⟨hm, hc⟩ := hp
    subst hm
    subst hc
    refine ⟨fun c hc => absurd hc (by simp), fun lhs rhs hs => ?_⟩
    cases hs
  · simp only [parse_equation, hsp, Option.some.injEq] at hp
    rw [finishParse, Prod.mk.injEq] at hp
    obtain ⟨hm, hc⟩ := hp
    subst hm
    subst hc
    constructor
    · intro c hc
      obtain ⟨p, hpk, hpf⟩ := List.mem_map.mp hc
      have := (List.mem_filter.mp hpk).2
      rw [hpf] at this
      simpa using this
    · intro lhs rhs hs htot
      injection hs with hl hr
      subst hl
      subst hr
      intro hmem
      obtain ⟨p, hpk, hpf⟩ := List.mem_map.mp hmem
      obtain ⟨hpmem, hpnz⟩ := List.mem_filter.mp hpk
      have hnd : ((processSide 1 (processSide (-1) [] l) r).map Prod.fst).Nodup := by
        apply nodup_keys_foldl_addTerm
        apply nodup_keys_foldl_addTerm
        simp
      have hpair : (p.1, p.2) ∈ processSide 1 (processSide (-1) [] l) r := by
        simpa using hpmem
      have hfind : odictFind (processSide 1 (processSide (-1) [] l) r) p.1 = some p.2 :=
        odictFind_of_mem _ _ _ hnd hpair
      have hval : dictGet (processSide 1 (processSide (-1) [] l) r) m = p.2 := by
        rw [← hpf]
        simp [dictGet, hfind]
      have hzero : dictGet (processSide 1 (processSide (-1) [] l) r) m = 0 := by
        rw [processSide_dictGet, processSide_dictGet, htot]
        simp [dictGet, odictFind]
      have hnz : p.2 ≠ 0 := by simpa using hpnz
      exact hnz (hval.symm.trans hzero)

/-- Witness for claim C5 on `"C00001 + C00002 <=> C00002 + C00003"`, where
`C00002` appears on both sides with total coefficient 1 and is dropped. -/
theorem claim_C5_witness :
    parse_equation ("C00001 + C00002 <=> C00002 + C00003".toList) =
        some (["C00001".toList, "C00003".toList], [-1, 1]) ∧
      ((∀ c ∈ ([-1, 1] : List Int), c ≠ 0) ∧
        (∀ lhs rhs,
          splitSides ("C00001 + C00002 <=> C00002 + C00003".toList) =
            SplitRes.sides lhs rhs →
          sideTotal ("C00002".toList) lhs = sideTotal ("C00002".toList) rhs →
          "C00002".toList ∉ ["C00001".toList, "C00003".toList])) :=
  ⟨by decide,
    claim_C5 ("C00001 + C00002 <=> C00002 + C00003".toList) ("C00002".toList)
      ["C00001".toList, "C00003".toList] [-1, 1] (by decide)⟩

/-- Claim C6: an equation string containing neither the reversible separator
`"<=>"` nor the irreversible separator `"=>"` makes parse_equation return
empty metabolite and coefficient sequences, and no exception is raised. -/
theorem claim_C6 (e : List Char)
    (h1 : isSubstr sepRev e = false) (h2 : isSubstr sepIrr e = false) :
    parse_equation e = some ([], []) := by
  simp [parse_equation, splitSides, h1, h2]

/-- Witness for claim C6 at the concrete separator-free input `"hello world"`. -/
theorem claim_C6_witness :
    isSubstr sepRev ("hello world".toList) = false ∧
      isSubstr sepIrr ("hello world".toList) = false ∧
      parse_equation ("hello world".toList) = some ([], []) :=
  ⟨by decide, by decide, claim_C6 ("hello world".toList) (by decide) (by decide)⟩

/-- Claim C9: parse_equation is not total over strings containing the
`"<=>"` substring.  `"C00001<=>C00002"` contains `"<=>"` but splitting on
`" <=> "` yields one part, and `"C00001 <=> C00002 <=> C00003"` yields
three parts; in both cases the Python tuple unpacking raises a ValueError,
modelled here by the `none` result. -/
theorem claim_C9 :
    isSubstr sepRev ("C00001<=>C00002".toList) = true ∧
      parse_equation ("C00001<=>C00002".toList) = none ∧
      isSubstr sepRev ("C00001 <=> C00002 <=> C00003".toList) = true ∧
      parse_equation ("C00001 <=> C00002 <=> C00003".toList) = none := by
  refine ⟨by decide, by decide, by decide, by decide⟩

/-- Claim C10: for every term of an equation side, parse_equation takes the
coefficient to be the integer value of the term's first whitespace token if
that token consists solely of digits and 1 otherwise, and takes the
metabolite to be the term's last whitespace token, accumulating it only when
it starts with `C` or `G`.  In particular the non-numeric coefficient
prefixes `"2n"` and `"(n)"` silently contribute coefficient 1, and a term
whose identifier starts with `X` is dropped. -/
theorem claim_C10 :
    (∀ (sign : Int) (d : Dict) (term : List Char),
      addTerm sign d term =
        if pyWords (pyStrip term) = [] then d
        else if startsCG (claimedMet term) then
          dictSet d (claimedMet term)
            (dictGet d (claimedMet term) + sign * claimedCoeff term)
        else d) ∧
    addTerm (-1) [] ("2n C00001".toList) = [("C00001".toList, -1)] ∧
    addTerm (-1) [] ("(n) C00001".toList) = [("C00001".toList, -1)] ∧
    addTerm 1 [] ("3 C00005".toList) = [("C00005".toList, 3)] ∧
    addTerm 1 [] ("2 X00001".toList) = [] := by
  refine ⟨fun sign d term => ?_, by decide, by decide, by decide, by decide⟩
  unfold addTerm claimedMet claimedCoeff
  rcases h : pyWords (pyStrip term) with _ | ⟨p, ps⟩ <;> simp [h]

theorem odictSet_map_negSnd (d : Dict) (k : List Char) (v : Int) :
    odictSet (d.map (fun p => (p.1, -p.2))) k (-v) =
      (odictSet d k v).map (fun p => (p.1, -p.2)) := by
  induction d with
  | nil => simp [odictSet]
  | cons q rest ih =>
    obtain ⟨k1, v1⟩ := q
    by_cases h : k1 = k
    · simp [odictSet, h]
    · simp [odictSet, h, ih]

theorem foldl_odictSet_negSnd :
    ∀ (l : List (List Char × Int)) (d : Dict),
      l.foldl (fun d p => odictSet d p.1 (-p.2)) (d.map (fun p => (p.1, -p.2)))
        = (l.foldl (fun d p => odictSet d p.1 p.2) d).map (fun p => (p.1, -p.2)) := by
  intro l
  induction l with
  | nil => intro d; simp
  | cons q rest ih =>
    intro d
    simp only [List.foldl_cons]
    rw [odictSet_map_negSnd, ih]

theorem dictOfPairs_map_negSnd (l : List (List Char × Int)) :
    dictOfPairs (l.map (fun p => (p.1, -p.2))) =
      (dictOfPairs l).map (fun p => (p.1, -p.2)) := by
  have h := foldl_odictSet_negSnd l []
  simp only [List.map_nil] at h
  unfold dictOfPairs
  rw [List.foldl_map]
  simpa using h

theorem dictGet_map_negSnd (d : Dict) (x : List Char) :
    dictGet (d.map (fun p => (p.1, -p.2))) x = - dictGet d x := by
  induction d with
  | nil => simp [dictGet, odictFind]
  | cons q rest ih =>
    obtain ⟨k1, v1⟩ := q
    by_cases h : k1 = x
    · simp [dictGet, odictFind, h]
    · simpa [dictGet, odictFind, h] using ih

/-- Claim C2 (code evaluation at the failing input): for the base reaction
`R00001` with the degenerate self-cancelling equation
`"C00001 <=> C00001"`, build_stoich_matrix produces no forward record but
does produce a reverse record with an empty stoichiometry, because the
`if "<=>" in eqn` branch of scrape_data.py line 110 is not guarded by
`if mets`.  The resulting matrix therefore contains the column
`R00001_r`, every entry of which is zero — contradicting the claimed
guarantee that neither column appears and that all-zero columns never
arise. -/
theorem claim_C2_code_eval :
    buildReactionStoich [("R00001".toList, some ("C00001 <=> C00001".toList))] =
        some [("R00001_r".toList, ([] : Dict))] ∧
      stoichCols [("R00001_r".toList, ([] : Dict))] = ["R00001_r".toList] ∧
      (∀ met, stoichEntry [("R00001_r".toList, ([] : Dict))] met ("R00001_r".toList) = 0) := by
  refine ⟨by decide, by decide, fun met => ?_⟩
  simp [stoichEntry, odictFind, dictGet]

/-- Claim C3 (counterexample): the equation `"C00001 <=> C00001"` contains
the reversible separator, yet build_stoich_matrix produces exactly one
directed record for it (the empty reverse record), not two. -/
theorem claim_C3_counterexample :
    isSubstr sepRev ("C00001 <=> C00001".toList) = true ∧
      (buildReactionStoich [("R00001".toList, some ("C00001 <=> C00001".toList))]).map
          List.length = some 1 := by
  refine ⟨by decide, by decide⟩

/-- Claim C3 (amended): for every equation containing the reversible
separator whose parse succeeds and yields at least one metabolite, the
splitter produces exactly two directed records, keyed `{base_id}_f` and
`{base_id}_r`, whose coefficient vectors are elementwise negations of each
other. -/
theorem claim_C3_amended (rid e : List Char) (mets : List (List Char)) (coeffs : List Int)
    (hp : parse_equation e = some (mets, coeffs)) (hm : mets ≠ [])
    (hr : isSubstr sepRev e = true) (he : e ≠ []) :
    buildReactionStoich [(rid, some e)] =
        some [(rid ++ fSuffix, dictOfPairs (mets.zip coeffs)),
              (rid ++ rSuffix,
                dictOfPairs ((mets.zip coeffs).map (fun p => (p.1, -p.2))))] ∧
      ∀ x, dictGet (dictOfPairs ((mets.zip coeffs).map (fun p => (p.1, -p.2)))) x
        = - dictGet (dictOfPairs (mets.zip coeffs)) x := by
  have hfr : rid ++ fSuffix ≠ rid ++ rSuffix := by
    intro h
    have : fSuffix = rSuffix := by
      exact List.append_cancel_left h
    simp [fSuffix, rSuffix] at this
  have hme : mets.isEmpty = false := by
    cases mets with
    | nil => exact absurd rfl hm
    | cons a t => rfl
  constructor
  · unfold buildReactionStoich
    simp only [List.foldl_cons, List.foldl_nil]
    simp [stepReaction, he, hp, hme, hr, odictSet, hfr]
  · intro x
    rw [dictOfPairs_map_negSnd, dictGet_map_negSnd]

/-- Witness for the amended claim C3 at the spec's worked example
`"C00001 + C00002 <=> C00003"` with base id `R00001`. -/
theorem claim_C3_witness :
    parse_equation ("C00001 + C00002 <=> C00003".toList) =
        some (["C00001".toList, "C00002".toList, "C00003".toList], [-1, -1, 1]) ∧
      (buildReactionStoich
            [("R00001".toList, some ("C00001 + C00002 <=> C00003".toList))] =
          some [("R00001".toList ++ fSuffix,
                  dictOfPairs
                    (["C00001".toList, "C00002".toList, "C00003".toList].zip
                      [-1, -1, 1])),
                ("R00001".toList ++ rSuffix,
                  dictOfPairs
                    ((["C00001".toList, "C00002".toList, "C00003".toList].zip
                        [-1, -1, 1]).map (fun p => (p.1, -p.2))))] ∧
        ∀ x,
          dictGet
              (dictOfPairs
                ((["C00001".toList, "C00002".toList, "C00003".toList].zip
                    [-1, -1, 1]).map (fun p => (p.1, -p.2)))) x
            = - dictGet
                (dictOfPairs
                  (["C00001".toList, "C00002".toList, "C00003".toList].zip
                    [-1, -1, 1])) x) :=
  ⟨by decide,
    claim_C3_amended ("R00001".toList) ("C00001 + C00002 <=> C00003".toList)
      ["C00001".toList, "C00002".toList, "C00003".toList] [-1, -1, 1]
      (by decide) (by decide) (by decide) (by decide)⟩

/-- Claim C1 (code evaluation at the failing input): on the stoichiometric
matrix `[[-1, -1]]` (one metabolite row, two directed-reaction columns,
both consuming the metabolite) the code's `sumRxnVec = np.sum(rxnMat,
axis=1)` is the metabolite-indexed vector `[2]`, while the number of
negative entries in each reaction column is 1; likewise for
`sumProdVec` on `[[1, 1]]`.  The degree vectors are therefore indexed by
metabolite, not by reaction, and `sumRxnVec[0] ≠ colNegCount 0`. -/
theorem claim_C1_code_eval :
    sumRxnVecM [[-1, -1]] = [2] ∧
      colNegCount [[-1, -1]] 0 = 1 ∧
      colNegCount [[-1, -1]] 1 = 1 ∧
      (sumRxnVecM [[-1, -1]]).getD 0 0 ≠ (colNegCount [[-1, -1]] 0 : Int) ∧
      sumProdVecM [[1, 1]] = [2] ∧
      colPosCount [[1, 1]] 0 = 1 ∧
      colPosCount [[1, 1]] 1 = 1 ∧
      (sumProdVecM [[1, 1]]).getD 0 0 ≠ (colPosCount [[1, 1]] 0 : Int) := by
  decide

theorem getD_map_zero (f : Int → Int) (hf : f 0 = 0) :
    ∀ (l : List Int) (j : Nat), (l.map f).getD j 0 = f (l.getD j 0) := by
  intro l
  induction l with
  | nil => intro j; simp [hf]
  | cons x xs ih =>
    intro j
    cases j with
    | zero => simp
    | succ n => simpa using ih n

theorem entryD_map_zero (f : Int → Int) (hf : f 0 = 0) :
    ∀ (a : List (List Int)) (i j : Nat),
      entryD (a.map (fun r => r.map f)) i j = f (entryD a i j) := by
  intro a
  induction a with
  | nil => intro i j; simp [entryD, hf]
  | cons r rs ih =>
    intro i j
    cases i with
    | zero => simpa [entryD] using getD_map_zero f hf r j
    | succ n => simpa [entryD] using ih n j

/-- Claim C4: for every cell of the stoichiometric matrix,
`rho[i][j] + pi[i][j] == stoich_matrix[i][j]` (rho keeps negative entries
clamping the rest to 0, pi keeps positive entries), and
`rxnMat[i][j] * prodMat[i][j] == 0`, i.e. the boolean reactant and product
matrices are disjoint. -/
theorem claim_C4 (a : List (List Int)) (i j : Nat) :
    entryD (rhoM a) i j + entryD (piM a) i j = entryD a i j ∧
      entryD (rxnMatM a) i j * entryD (prodMatM a) i j = 0 := by
  have h1 : entryD (rhoM a) i j = min (entryD a i j) 0 :=
    entryD_map_zero (fun x => min x 0) (by simp) a i j
  have h2 : entryD (piM a) i j = max (entryD a i j) 0 :=
    entryD_map_zero (fun x => max x 0) (by simp) a i j
  have h3 : entryD (rxnMatM a) i j =
      (if min (entryD a i j) 0 = 0 then 0 else 1) := by
    unfold rxnMatM
    rw [entryD_map_zero (fun x => if x = 0 then 0 else 1) (by simp), h1]
  have h4 : entryD (prodMatM a) i j =
      (if max (entryD a i j) 0 = 0 then 0 else 1) := by
    unfold prodMatM
    rw [entryD_map_zero (fun x => if x = 0 then 0 else 1) (by simp), h2]
  constructor
  · rw [h1, h2]
    rcases le_total (entryD a i j) 0 with h | h
    · rw [min_eq_left h, max_eq_right h, add_zero]
    · rw [min_eq_right h, max_eq_left h, zero_add]
  · rw [h3, h4]
    rcases lt_trichotomy (entryD a i j) 0 with h | h | h
    · rw [max_eq_right h.le]
      simp
    · rw [h]
      simp
    · rw [min_eq_right h.le]
      simp

theorem filterMap_eq_filter_map {α β : Type} (f : α → Option β) (d0 : β) :
    ∀ l : List α,
      l.filterMap f =
        (l.filter (fun i => (f i).isSome)).map (fun i => (f i).getD d0) := by
  intro l
  induction l with
  | nil => simp
  | cons a t ih =>
    rcases h : f a with _ | v
    · simp [List.filterMap_cons, List.filter_cons, h, ih]
    · simp [List.filterMap_cons, List.filter_cons, h, ih]

/-- Claim C7: for every input list of external metabolite identifiers, the
subset projection `[met_map[i] for i in lst if i in met_map]` returns the
internal indices of exactly those identifiers present in the metabolite
map, preserving the input list's order and never raising on identifiers
not found (the output is literally the present-identifier sublist, in
order, mapped through the lookup); in particular a list containing one
absent identifier projects to a list shorter by exactly one. -/
theorem claim_C7 (mm : List (List Char × Nat)) (l : List (List Char)) :
    subsetProj mm l =
        (l.filter (fun i => (odictFind mm i).isSome)).map
          (fun i => (odictFind mm i).getD 0) ∧
      (∀ l1 l2 x, l = l1 ++ x :: l2 → odictFind mm x = none →
        (∀ i ∈ l1 ++ l2, (odictFind mm i).isSome = true) →
        (subsetProj mm l).length + 1 = l.length) := by
  have hgen : subsetProj mm l =
      (l.filter (fun i => (odictFind mm i).isSome)).map
        (fun i => (odictFind mm i).getD 0) :=
    filterMap_eq_filter_map (fun i => odictFind mm i) 0 l
  refine ⟨hgen, ?_⟩
  intro l1 l2 x hl hx hall
  subst hl
  rw [hgen, List.length_map, List.filter_append]
  have hskip : ((x :: l2).filter (fun i => (odictFind mm i).isSome)) =
      l2.filter (fun i => (odictFind mm i).isSome) := by
    simp [List.filter_cons, hx]
  rw [hskip]
  rw [List.filter_eq_self.mpr
    (fun a ha => hall a (List.mem_append.mpr (Or.inl ha)))]
  rw [List.filter_eq_self.mpr
    (fun a ha => hall a (List.mem_append.mpr (Or.inr ha)))]
  simp only [List.length_append, List.length_cons]
  omega

/-- Witness for claim C7: the projection characterization at the concrete
three-element subset `["C00001", "C09999", "C00003"]` against a two-entry
metabolite map missing `"C09999"`, together with the shorter-by-one
consequence with its hypotheses discharged there. -/
theorem claim_C7_witness :
    (subsetProj [("C00001".toList, 0), ("C00003".toList, 1)]
          (["C00001".toList] ++ "C09999".toList :: ["C00003".toList]) =
        ((["C00001".toList] ++ "C09999".toList :: ["C00003".toList]).filter
            (fun i => (odictFind [("C00001".toList, 0), ("C00003".toList, 1)] i).isSome)).map
          (fun i => (odictFind [("C00001".toList, 0), ("C00003".toList, 1)] i).getD 0)) ∧
      (subsetProj [("C00001".toList, 0), ("C00003".toList, 1)]
            (["C00001".toList] ++ "C09999".toList :: ["C00003".toList])).length + 1 =
        (["C00001".toList] ++ "C09999".toList :: ["C00003".toList]).length :=
  ⟨(claim_C7 [("C00001".toList, 0), ("C00003".toList, 1)]
      (["C00001".toList] ++ "C09999".toList :: ["C00003".toList])).1,
    (claim_C7 [("C00001".toList, 0), ("C00003".toList, 1)]
        (["C00001".toList] ++ "C09999".toList :: ["C00003".toList])).2
      ["C00001".toList] ["C00003".toList] ("C09999".toList) rfl
      (by decide) (by decide)⟩

theorem odictSet_eq_append {α β : Type} [DecidableEq α]
    (d : List (α × β)) (k : α) (v : β) :
    odictFind d k = none → odictSet d k v = d ++ [(k, v)] := by
  induction d with
  | nil => intro _; simp [odictSet]
  | cons q rest ih =>
    obtain ⟨k1, v1⟩ := q
    intro h
    by_cases h1 : k1 = k
    · rw [odictFind, if_pos h1] at h
      simp at h
    · rw [odictFind, if_neg h1] at h
      simp [odictSet, h1, ih h]

theorem odictFind_append_none {α β : Type} [DecidableEq α]
    (d1 d2 : List (α × β)) (k : α) (h : odictFind d1 k = none) :
    odictFind (d1 ++ d2) k = odictFind d2 k := by
  induction d1 with
  | nil => simp
  | cons q rest ih =>
    obtain ⟨k1, v1⟩ := q
    by_cases h1 : k1 = k
    · rw [odictFind, if_pos h1] at h
      simp at h
    · rw [odictFind, if_neg h1] at h
      rw [List.cons_append, odictFind, if_neg h1]
      exact ih h

theorem foldl_odictSet_fresh {α β : Type} [DecidableEq α] :
    ∀ (l : List (α × β)) (d0 : List (α × β)),
      (∀ p ∈ l, odictFind d0 p.1 = none) → (l.map Prod.fst).Nodup →
      l.foldl (fun d p => odictSet d p.1 p.2) d0 = d0 ++ l := by
  intro l
  induction l with
  | nil => intro d0 _ _; simp
  | cons q rest ih =>
    intro d0 hf hn
    obtain ⟨k, v⟩ := q
    simp only [List.map_cons, List.nodup_cons] at hn
    have hfresh : ∀ p ∈ rest, odictFind (d0 ++ [(k, v)]) p.1 = none := by
      intro p hp
      have hmem2 : p.1 ∈ rest.map Prod.fst := List.mem_map.mpr ⟨p, hp, rfl⟩
      have hpk : k ≠ p.1 := by
        intro he
        apply hn.1
        rw [he]
        exact hmem2
      rw [odictFind_append_none _ _ _ (hf p (List.mem_cons.mpr (Or.inr hp)))]
      rw [odictFind, if_neg hpk]
      rfl
    simp only [List.foldl_cons]
    rw [odictSet_eq_append d0 k v (hf (k, v) (List.mem_cons.mpr (Or.inl rfl)))]
    rw [ih (d0 ++ [(k, v)]) hfresh hn.2]
    simp

theorem enumFrom_map_swap_fst {α : Type} (l : List α) :
    ∀ n, ((List.enumFrom n l).map swapPair).map Prod.fst = l := by
  induction l with
  | nil => intro n; simp [List.enumFrom]
  | cons a t ih => intro n; simp [List.enumFrom, swapPair, ih]

theorem mem_enumFrom_map_fst_ge {α : Type} (l : List α) :
    ∀ n x, x ∈ (List.enumFrom n l).map Prod.fst → n ≤ x := by
  induction l with
  | nil => intro n x h; simp [List.enumFrom] at h
  | cons a t ih =>
    intro n x h
    simp only [List.enumFrom, List.map_cons, List.mem_cons] at h
    rcases h with h | h
    · omega
    · have := ih (n + 1) x h
      omega

theorem nodup_enumFrom_map_fst {α : Type} (l : List α) :
    ∀ n, ((List.enumFrom n l).map Prod.fst).Nodup := by
  induction l with
  | nil => intro n; simp [List.enumFrom]
  | cons a t ih =>
    intro n
    simp only [List.enumFrom, List.map_cons, List.nodup_cons]
    refine ⟨fun hmem => ?_, ih (n + 1)⟩
    exact absurd (mem_enumFrom_map_fst_ge t (n + 1) n hmem) (by omega)

theorem odictFind_enumFrom_ge {α : Type} (l : List α) :
    ∀ (n k : Nat) (x : α), odictFind (List.enumFrom n l) k = some x → n ≤ k := by
  induction l with
  | nil => intro n k x h; simp [List.enumFrom, odictFind] at h
  | cons a t ih =>
    intro n k x h
    simp only [List.enumFrom] at h
    by_cases he : n = k
    · omega
    · rw [odictFind, if_neg he] at h
      have := ih (n + 1) k x h
      omega

theorem roundtrip_enumFrom {α : Type} [DecidableEq α] (l : List α) :
    ∀ n, l.Nodup → ∀ i ∈ l,
      ∃ k, odictFind ((List.enumFrom n l).map swapPair) i = some k ∧
        odictFind (List.enumFrom n l) k = some i := by
  induction l with
  | nil => intro n _ i hi; simp at hi
  | cons a t ih =>
    intro n hnd i hi
    simp only [List.nodup_cons] at hnd
    rcases List.mem_cons.mp hi with h | h
    · subst h
      refine ⟨n, ?_, ?_⟩
      · simp [List.enumFrom, swapPair, odictFind]
      · simp [List.enumFrom, odictFind]
    · have hia : a ≠ i := by
        intro he
        apply hnd.1
        rw [he]
        exact h
      obtain ⟨k, hk1, hk2⟩ := ih (n + 1) hnd.2 i h
      have hkn : n + 1 ≤ k := odictFind_enumFrom_ge t (n + 1) k i hk2
      refine ⟨k, ?_, ?_⟩
      · simp only [List.enumFrom, List.map_cons, swapPair]
        rw [odictFind, if_neg hia]
        exact hk1
      · simp only [List.enumFrom]
        rw [odictFind, if_neg (by omega : n ≠ k)]
        exact hk2

theorem met_map_eq_enum (mets : List (List Char)) (h : mets.Nodup) :
    met_map mets = (List.enumFrom 0 mets).map swapPair := by
  unfold met_map
  have h1 : mets.enum = List.enumFrom 0 mets := rfl
  rw [h1]
  have h2 : (List.enumFrom 0 mets).foldl (fun d p => odictSet d p.2 p.1)
        ([] : List (List Char × Nat))
      = ((List.enumFrom 0 mets).map swapPair).foldl
          (fun d p => odictSet d p.1 p.2) [] := by
    simp only [List.foldl_map]
    rfl
  rw [h2]
  apply foldl_odictSet_fresh
  · intro p _
    rfl
  · rw [enumFrom_map_swap_fst]
    exact h

theorem inv_met_map_eq_enum (mets : List (List Char)) (h : mets.Nodup) :
    inv_met_map mets = List.enumFrom 0 mets := by
  unfold inv_met_map
  rw [met_map_eq_enum mets h]
  have h2 : ((List.enumFrom 0 mets).map swapPair).foldl
        (fun d p => odictSet d p.2 p.1) ([] : List (Nat × List Char))
      = (((List.enumFrom 0 mets).map swapPair).map swapPair).foldl
          (fun d p => odictSet d p.1 p.2) [] := by
    simp only [List.foldl_map]
    rfl
  rw [h2]
  have h3 : ((List.enumFrom 0 mets).map swapPair).map swapPair
      = List.enumFrom 0 mets := by
    rw [List.map_map]
    have hc : (swapPair ∘ swapPair : Nat × List Char → Nat × List Char) =
        fun p => p := by
      funext p
      simp [swapPair]
    rw [hc]
    simp
  rw [h3]
  apply foldl_odictSet_fresh
  · intro p _
    rfl
  · exact nodup_enumFrom_map_fst mets 0

/-- Claim C8: for every metabolite identifier and every directed-reaction
identifier present in the assembled matrix (whose row and column label
lists are duplicate-free by construction), composing the forward
identifier-to-index map with its inverse is the identity:
`inv_met_map[met_map[id]] == id` and `inv_rxn_map[rxn_map[id]] == id`. -/
theorem claim_C8 (metabolites reactions : List (List Char)) (i j : List Char)
    (hm : metabolites.Nodup) (hr : reactions.Nodup)
    (hi : i ∈ metabolites) (hj : j ∈ reactions) :
    (∃ k, odictFind (met_map metabolites) i = some k ∧
        odictFind (inv_met_map metabolites) k = some i) ∧
      (∃ k, odictFind (rxn_map reactions) j = some k ∧
        odictFind (inv_rxn_map reactions) k = some j) := by
  constructor
  · rw [met_map_eq_enum metabolites hm, inv_met_map_eq_enum metabolites hm]
    exact roundtrip_enumFrom metabolites 0 hm i hi
  · have e1 : rxn_map reactions = met_map reactions := rfl
    have e2 : inv_rxn_map reactions = inv_met_map reactions := rfl
    rw [e1, e2, met_map_eq_enum reactions hr, inv_met_map_eq_enum reactions hr]
    exact roundtrip_enumFrom reactions 0 hr j hj

/-- Witness for claim C8 on a concrete two-row, two-column matrix. -/
theorem claim_C8_witness :
    (["C00001".toList, "C00002".toList] : List (List Char)).Nodup ∧
      (["R00001_f".toList, "R00001_r".toList] : List (List Char)).Nodup ∧
      ((∃ k, odictFind (met_map ["C00001".toList, "C00002".toList])
            ("C00002".toList) = some k ∧
          odictFind (inv_met_map ["C00001".toList, "C00002".toList]) k =
            some ("C00002".toList)) ∧
        (∃ k, odictFind (rxn_map ["R00001_f".toList, "R00001_r".toList])
            ("R00001_r".toList) = some k ∧
          odictFind (inv_rxn_map ["R00001_f".toList, "R00001_r".toList]) k =
            some ("R00001_r".toList))) :=
  ⟨by decide, by decide,
    claim_C8 ["C00001".toList, "C00002".toList]
      ["R00001_f".toList, "R00001_r".toList]
      ("C00002".toList) ("R00001_r".toList)
      (by decide) (by decide) (by decide) (by decide)⟩

example : parse_equation ("C00001 + C00002 <=> C00003".toList) =
    some (["C00001".toList, "C00002".toList, "C00003".toList], [-1, -1, 1]) := by decide

example : parse_equation ("2 C00001 => C00004".toList) =
    some (["C00001".toList, "C00004".toList], [-2, 1]) := by decide

example : parse_equation ("C00001 <=> C00001".toList) = some ([], []) := by decide
